import Mathlib

/-!
Shallow embedding of `breaklsfr18lab.py`: two LFSR keystream generators, a
combiner working modulo 255, and a meet-in-the-middle seed recovery.  Python
integers are modelled as `Nat` (state values and bytes are non-negative) or
`Int` (tap arithmetic, where subtraction may go negative), with Python's
bitwise operators rendered by the corresponding `Nat` bitwise operators and
`%` by `Nat.mod` / `Int.emod`.  The recovery table (a Python dict with
insert-if-absent) is an association list searched from the front, and the
implicit `None` fall-through of `mitm_recover_seeds` becomes `Option.none`.
-/

/-- Module constant `WIDTH_REG1 = 12`. -/
def WIDTH_REG1 : Nat := 12

/-- Module constant `WIDTH_REG2 = 19`. -/
def WIDTH_REG2 : Nat := 19

/-- Module constant `RAW_TAPS_REG1 = [2, 7]`. -/
def RAW_TAPS_REG1 : List Int := [2, 7]

/-- Module constant `RAW_TAPS_REG2 = [5, 11]`. -/
def RAW_TAPS_REG2 : List Int := [5, 11]

/-- Python `convert_taps`: for each raw 1-based-from-MSB tap `t`, produce
`pos_from_lsb = (width - 1) - (t - 1)`.  The Python loop appends one offset
per tap in order, i.e. a `map`.  Integer arithmetic (no truncation at 0). -/
def convert_taps (raw_taps : List Int) (width : Int) : List Int :=
  raw_taps.map (fun t => (width - 1) - (t - 1))

/-- The register-1 tap offsets `convert_taps(RAW_TAPS_REG1, WIDTH_REG1)`,
as natural numbers (they are `[10, 5]`, non-negative, so `Int.toNat` is a
faithful bridge to the `Nat`-valued shift positions used by the engine). -/
def taps1 : List Nat := (convert_taps RAW_TAPS_REG1 (WIDTH_REG1 : Int)).map Int.toNat

/-- The register-2 tap offsets `convert_taps(RAW_TAPS_REG2, WIDTH_REG2)`,
as natural numbers (they are `[14, 8]`). -/
def taps2 : List Nat := (convert_taps RAW_TAPS_REG2 (WIDTH_REG2 : Int)).map Int.toNat

/-- Python `lfsr_next_bit`: output bit = `state & 1`; feedback = XOR of
`(state >> pos) & 1` over the taps; new state =
`((state >> 1) | (fb << (width-1))) & ((1 << width) - 1)`. -/
def lfsr_next_bit (state width : Nat) (taps : List Nat) : Nat × Nat :=
  let out_bit := state &&& 1
  let fb := taps.foldl (fun fb pos => fb ^^^ ((state >>> pos) &&& 1)) 0
  let state1 := (state >>> 1) ||| (fb <<< (width - 1))
  (out_bit, state1 &&& ((1 <<< width) - 1))

/-- Python `lfsr_next_byte`: eight `lfsr_next_bit` steps, packing bit `i` of step
`i` into bit `i` of the byte (`b |= bit << i`), threading the state. -/
def lfsr_next_byte (seed width : Nat) (taps : List Nat) : Nat × Nat :=
  (List.range 8).foldl
    (fun bs i =>
      let p := lfsr_next_bit bs.2 width taps
      (bs.1 ||| (p.1 <<< i), p.2))
    (0, seed)

/-- Python `lfsr_stream`: `nbytes` bytes produced by iterating `lfsr_next_byte`
from `seed`, collecting the bytes in order. -/
def lfsr_stream (seed width : Nat) (taps : List Nat) : Nat → List Nat
  | 0 => []
  | n + 1 =>
    let p := lfsr_next_byte seed width taps
    p.1 :: lfsr_stream p.2 width taps n

/-- The state reached after `n` whole-byte steps from `seed` (iterating
`lfsr_next_byte` `n` times); `lfsr_stream` threads exactly these states. -/
def byte_states (seed width : Nat) (taps : List Nat) : Nat → Nat
  | 0 => seed
  | n + 1 => byte_states (lfsr_next_byte seed width taps).2 width taps n

/-- The state reached after `t` single-bit steps from `seed`. -/
def lfsr_states (seed width : Nat) (taps : List Nat) : Nat → Nat
  | 0 => seed
  | t + 1 => (lfsr_next_bit (lfsr_states seed width taps t) width taps).2

/-- The `t`-th output bit of the LFSR started at `seed`. -/
def lfsr_out (seed width : Nat) (taps : List Nat) (t : Nat) : Nat :=
  (lfsr_next_bit (lfsr_states seed width taps t) width taps).1

/-- Running sum used to describe the byte packed by `lfsr_next_byte`:
`out_sum s j k` adds the next `k` output bits from state `s`, weighted
`2 ^ j, 2 ^ (j+1), …`. -/
def out_sum (width : Nat) (taps : List Nat) (s j : Nat) : Nat → Nat
  | 0 => 0
  | k + 1 =>
    (lfsr_next_bit s width taps).1 * 2 ^ j +
      out_sum width taps (lfsr_next_bit s width taps).2 (j + 1) k

/-- Python `needed_seq header seed1`: the byte sequence register 2 would need to
emit, `needed[i] = (header[i] - seq1[i]) % 255` with Python's `%` on
possibly negative differences (hence `Int.emod`). -/
def needed_seq (header : List Nat) (seed1 : Nat) : List Nat :=
  List.zipWith (fun (k b1 : Nat) => (((k : Int) - (b1 : Int)) % 255).toNat)
    header (lfsr_stream seed1 WIDTH_REG1 taps1 header.length)

/-- Lookup in the recovery table (the Python dict `seq_to_seed2`),
modelled as first-match search in an association list. -/
def table_find (tbl : List (List Nat × Nat)) (key : List Nat) : Option Nat :=
  match tbl with
  | [] => none
  | (k, v) :: rest => if k = key then some v else table_find rest key

/-- Table construction: `for seed2 in range(max_seed2)`, insert
`stream(seed2) ↦ seed2` only if the sequence is not yet a key
(`if seq2 not in seq_to_seed2`).  `start` is the next seed, `fuel` the
number of seeds still to process. -/
def build_table (n : Nat) : Nat → Nat → List (List Nat × Nat) → List (List Nat × Nat)
  | _start, 0, tbl => tbl
  | start, fuel + 1, tbl =>
    let seq2 := lfsr_stream start WIDTH_REG2 taps2 n
    build_table n (start + 1) fuel
      (if (table_find tbl seq2).isSome then tbl else tbl ++ [(seq2, start)])

/-- Search loop: `for seed1 in range(max_seed1)`, return
`(seed1, table[needed])` on the first table hit; falling off the end of the
loop is Python's implicit `None`. -/
def mitm_search (header : List Nat) (tbl : List (List Nat × Nat)) : Nat → Nat → Option (Nat × Nat)
  | _start, 0 => none
  | start, fuel + 1 =>
    match table_find tbl (needed_seq header start) with
    | some seed2 => some (start, seed2)
    | none => mitm_search header tbl (start + 1) fuel

/-- Python `mitm_recover_seeds`: build the register-2 table over all
`1 << WIDTH_REG2` seeds, then scan register-1 seeds `0 … (1 << WIDTH_REG1) - 1`
in ascending order. -/
def mitm_recover_seeds (header : List Nat) : Option (Nat × Nat) :=
  mitm_search header (build_table header.length 0 (1 <<< WIDTH_REG2) []) 0 (1 <<< WIDTH_REG1)

/-- Loop body of `generate_full_keystream`: advance both registers one byte
and emit `(b1 + b2) % 255`. -/
def generate_full_keystream_go (s1 s2 : Nat) : Nat → List Nat
  | 0 => []
  | n + 1 =>
    let p1 := lfsr_next_byte s1 WIDTH_REG1 taps1
    let p2 := lfsr_next_byte s2 WIDTH_REG2 taps2
    ((p1.1 + p2.1) % 255) :: generate_full_keystream_go p1.2 p2.2 n

/-- Python `generate_full_keystream(seed1, seed2, nbytes)`. -/
def generate_full_keystream (seed1 seed2 nbytes : Nat) : List Nat :=
  generate_full_keystream_go seed1 seed2 nbytes

/-- The header obtained by combining the two registers' first-`n`-byte
streams bytewise with `(b1 + b2) % 255` (the keystream the cipher would
produce from a given seed pair). -/
def combined_header (seed1 seed2 n : Nat) : List Nat :=
  List.zipWith (fun b1 b2 => (b1 + b2) % 255)
    (lfsr_stream seed1 WIDTH_REG1 taps1 n) (lfsr_stream seed2 WIDTH_REG2 taps2 n)

/-- No seed pair within the configured widths generates `header`. -/
def no_pair_produces (header : List Nat) : Prop :=
  ∀ s1 s2 : Nat, s1 < 2 ^ WIDTH_REG1 → s2 < 2 ^ WIDTH_REG2 →
    generate_full_keystream s1 s2 header.length ≠ header

/-- Bit `j` of a byte sequence, bytes packed least-significant-bit first. -/
def stream_bit (bytes : List Nat) (j : Nat) : Nat :=
  (bytes.getD (j / 8) 0) / 2 ^ (j % 8) % 2

/-- Boolean check that `bytes` (of length `n`) violates the linear
recurrence `bit (t+19) = bit (t+14) XOR bit (t+8)` satisfied by every
register-2 output stream, at some position. -/
def rec_violated (n : Nat) (bytes : List Nat) : Bool :=
  (List.range (8 * n - 19)).any fun t =>
    stream_bit bytes (t + 19) != (stream_bit bytes (t + 14) ^^^ stream_bit bytes (t + 8))

/-- The concrete 4-byte header `combined_header 0 32000 4`; register 2's
stream from seed 32000 is `[0, 125, 224, 255]`, whose final byte 255 is
folded to 0 by the combiner, which defeats the recovery search. -/
def CEX_HEADER : List Nat := [0, 125, 224, 0]

/-- Balanced-tree check that every register-1 seed in `[a, a + 2 ^ d)`
yields a `needed` sequence violating the register-2 recurrence for
`CEX_HEADER` (balanced so that kernel evaluation uses logarithmic stack). -/
def check_pow (a : Nat) : Nat → Bool
  | 0 => rec_violated 4 (needed_seq CEX_HEADER a)
  | d + 1 => check_pow a d && check_pow (a + 2 ^ d) d

/-- Register-2 least-seed predicate: `v` is the smallest seed whose
first-`n`-byte stream is `key`, among seeds below `F`. -/
def least_seed2 (n F : Nat) (key : List Nat) (v : Nat) : Prop :=
  v < F ∧ lfsr_stream v WIDTH_REG2 taps2 n = key ∧
    ∀ u, u < v → lfsr_stream u WIDTH_REG2 taps2 n ≠ key

/-- The recovery-table invariant: `tbl` holds exactly the least producing
seed below `F` for each reachable key. -/
def table_complete (n F : Nat) (tbl : List (List Nat × Nat)) : Prop :=
  ∀ key v, table_find tbl key = some v ↔ least_seed2 n F key v

/-! ### Basic bit-arithmetic helpers -/

theorem xor_small {a b : Nat} (ha : a ≤ 1) (hb : b ≤ 1) : a ^^^ b = (a + b) % 2 := by
  interval_cases a <;> interval_cases b <;> decide

theorem or_as_add {a : Nat} {i : Nat} (b : Nat) (ha : a < 2 ^ i) :
    a ||| (b <<< i) = a + b * 2 ^ i := by
  calc a ||| (b <<< i) = (2 ^ i * b) ||| a := by
        rw [Nat.shiftLeft_eq, Nat.or_comm, Nat.mul_comm]
    _ = 2 ^ i * b + a := (Nat.mul_add_lt_is_or ha b).symm
    _ = a + b * 2 ^ i := by ring

theorem mask_eq_mod (x w : Nat) : x &&& ((1 <<< w) - 1) = x % 2 ^ w := by
  rw [Nat.shiftLeft_eq, one_mul, Nat.and_pow_two_sub_one_eq_mod]

theorem fb_fold_eq (state : Nat) (l : List Nat) (acc : Nat) (hacc : acc ≤ 1) :
    l.foldl (fun f pos => f ^^^ ((state >>> pos) &&& 1)) acc
      = (acc + l.countP (fun p => state.testBit p)) % 2 := by
  induction l generalizing acc with
  | nil => simpa using (Nat.mod_eq_of_lt (by omega)).symm
  | cons p l ih =>
    have hbit : (state >>> p) &&& 1 = state / 2 ^ p % 2 := by
      rw [Nat.and_one_is_mod, Nat.shiftRight_eq_div_pow]
    have hble : (state >>> p) &&& 1 ≤ 1 := by
      rw [hbit]; omega
    have htb : (if state.testBit p then 1 else 0) = state / 2 ^ p % 2 := by
      rw [Nat.testBit_to_div_mod]
      rcases Nat.mod_two_eq_zero_or_one (state / 2 ^ p) with h | h <;> simp [h]
    rw [List.foldl_cons, ih _ (by rw [xor_small hacc hble]; omega),
      List.countP_cons, xor_small hacc hble, hbit, htb]
    omega

theorem fb_fold_le_one (state : Nat) (l : List Nat) :
    l.foldl (fun f pos => f ^^^ ((state >>> pos) &&& 1)) 0 ≤ 1 := by
  rw [fb_fold_eq state l 0 (by omega)]
  omega

/-! ### The single-bit transition -/

theorem lfsr_next_bit_eq (state width : Nat) (taps : List Nat)
    (hw : 1 ≤ width) (hs : state < 2 ^ width) :
    lfsr_next_bit state width taps =
      (state % 2,
        state / 2 + (taps.countP (fun p => state.testBit p)) % 2 * 2 ^ (width - 1)) := by
  have hpow : 2 ^ width = 2 ^ (width - 1) * 2 := by
    rw [← pow_succ]
    congr 1
    omega
  have hhalf : state / 2 < 2 ^ (width - 1) := by omega
  have hfb : taps.foldl (fun f pos => f ^^^ ((state >>> pos) &&& 1)) 0
      = (taps.countP (fun p => state.testBit p)) % 2 := by
    rw [fb_fold_eq state taps 0 (by omega), Nat.zero_add]
  have hfble : (taps.countP (fun p => state.testBit p)) % 2 ≤ 1 := by omega
  unfold lfsr_next_bit
  simp only [hfb, Prod.mk.injEq]
  constructor
  · simp
  · rw [Nat.shiftRight_eq_div_pow, pow_one, or_as_add _ hhalf, mask_eq_mod]
    have hmul : (taps.countP (fun p => state.testBit p)) % 2 * 2 ^ (width - 1)
        ≤ 1 * 2 ^ (width - 1) := Nat.mul_le_mul_right _ hfble
    rw [one_mul] at hmul
    exact Nat.mod_eq_of_lt (by omega)

theorem lfsr_next_bit_fst_le (state width : Nat) (taps : List Nat) :
    (lfsr_next_bit state width taps).1 ≤ 1 := by
  show state &&& 1 ≤ 1
  rw [Nat.and_one_is_mod]
  omega

theorem lfsr_next_bit_snd_lt (state width : Nat) (taps : List Nat) :
    (lfsr_next_bit state width taps).2 < 2 ^ width := by
  show ((state >>> 1) ||| _) &&& ((1 <<< width) - 1) < 2 ^ width
  rw [mask_eq_mod]
  exact Nat.mod_lt _ (Nat.pos_pow_of_pos _ (by omega))

theorem lfsr_next_bit_zero (width : Nat) (taps : List Nat) :
    lfsr_next_bit 0 width taps = (0, 0) := by
  have hfb : taps.foldl (fun f pos => f ^^^ ((0 >>> pos) &&& 1)) 0 = 0 := by
    rw [fb_fold_eq 0 taps 0 (by omega)]
    simp [Nat.zero_testBit]
  unfold lfsr_next_bit
  simp only [hfb]
  refine Prod.ext ?_ ?_
  · simp
  · show ((0 >>> 1) ||| (0 <<< (width - 1))) &&& ((1 <<< width) - 1) = 0
    simp [Nat.zero_shiftRight, Nat.zero_shiftLeft]

theorem lfsr_next_byte_zero (width : Nat) (taps : List Nat) :
    lfsr_next_byte 0 width taps = (0, 0) := by
  have h8 : List.range 8 = [0, 1, 2, 3, 4, 5, 6, 7] := rfl
  unfold lfsr_next_byte
  rw [h8]
  simp [List.foldl, lfsr_next_bit_zero, Nat.zero_shiftLeft]

/-! ### Stream basics -/

theorem lfsr_stream_succ (seed width : Nat) (taps : List Nat) (n : Nat) :
    lfsr_stream seed width taps (n + 1) =
      (lfsr_next_byte seed width taps).1 ::
        lfsr_stream (lfsr_next_byte seed width taps).2 width taps n := rfl

theorem byte_states_succ (seed width : Nat) (taps : List Nat) (n : Nat) :
    byte_states seed width taps (n + 1) =
      byte_states (lfsr_next_byte seed width taps).2 width taps n := rfl

theorem lfsr_stream_length (seed width : Nat) (taps : List Nat) (n : Nat) :
    (lfsr_stream seed width taps n).length = n := by
  induction n generalizing seed with
  | zero => rfl
  | succ n ih => rw [lfsr_stream_succ, List.length_cons, ih]

theorem lfsr_stream_zero_seed (width : Nat) (taps : List Nat) (n : Nat) :
    lfsr_stream 0 width taps n = List.replicate n 0 := by
  induction n with
  | zero => rfl
  | succ n ih =>
    rw [lfsr_stream_succ, lfsr_next_byte_zero]
    simp [ih, List.replicate_succ]

theorem lfsr_stream_add (seed width : Nat) (taps : List Nat) (n m : Nat) :
    lfsr_stream seed width taps (n + m) =
      lfsr_stream seed width taps n ++
        lfsr_stream (byte_states seed width taps n) width taps m := by
  induction n generalizing seed with
  | zero => simp [lfsr_stream, byte_states]
  | succ n ih =>
    have hnm : n + 1 + m = (n + m) + 1 := by omega
    rw [hnm, lfsr_stream_succ, lfsr_stream_succ, ih, byte_states_succ, List.cons_append]

/-! ### Single-bit views of the byte machinery -/

theorem lfsr_out_le_one (seed width : Nat) (taps : List Nat) (t : Nat) :
    lfsr_out seed width taps t ≤ 1 :=
  lfsr_next_bit_fst_le _ _ _

theorem lfsr_states_succ_front (seed width : Nat) (taps : List Nat) (t : Nat) :
    lfsr_states seed width taps (t + 1) =
      lfsr_states (lfsr_next_bit seed width taps).2 width taps t := by
  induction t with
  | zero => rfl
  | succ t ih =>
    show (lfsr_next_bit (lfsr_states seed width taps (t + 1)) width taps).2 = _
    rw [ih]
    rfl

theorem lfsr_states_add (seed width : Nat) (taps : List Nat) (a b : Nat) :
    lfsr_states seed width taps (a + b) =
      lfsr_states (lfsr_states seed width taps a) width taps b := by
  induction b with
  | zero => rfl
  | succ b ih =>
    show (lfsr_next_bit (lfsr_states seed width taps (a + b)) width taps).2 = _
    rw [ih]
    rfl

theorem lfsr_out_add (seed width : Nat) (taps : List Nat) (a b : Nat) :
    lfsr_out (lfsr_states seed width taps a) width taps b = lfsr_out seed width taps (a + b) := by
  unfold lfsr_out
  rw [lfsr_states_add]

theorem lfsr_out_succ_front (seed width : Nat) (taps : List Nat) (t : Nat) :
    lfsr_out (lfsr_next_bit seed width taps).2 width taps t = lfsr_out seed width taps (t + 1) := by
  unfold lfsr_out
  rw [show t + 1 = 1 + t from by omega, lfsr_states_add]
  rfl

theorem byte_fold (width : Nat) (taps : List Nat) :
    ∀ (k j acc s : Nat), acc < 2 ^ j →
      (List.range' j k).foldl
        (fun bs i =>
          let p := lfsr_next_bit bs.2 width taps
          (bs.1 ||| (p.1 <<< i), p.2))
        (acc, s)
      = (acc + out_sum width taps s j k, lfsr_states s width taps k) := by
  intro k
  induction k with
  | zero => intro j acc s _; simp [out_sum, lfsr_states]
  | succ k ih =>
    intro j acc s hacc
    rw [List.range'_succ, List.foldl_cons]
    have hb := lfsr_next_bit_fst_le s width taps
    show List.foldl _
        ((acc ||| (lfsr_next_bit s width taps).1 <<< j, (lfsr_next_bit s width taps).2))
        (List.range' (j + 1) k) = _
    rw [or_as_add _ hacc, ih (j + 1) _ _ (by
      have hm : (lfsr_next_bit s width taps).1 * 2 ^ j ≤ 1 * 2 ^ j :=
        Nat.mul_le_mul_right _ hb
      rw [one_mul] at hm
      rw [pow_succ]
      omega)]
    rw [lfsr_states_succ_front,
      show out_sum width taps s j (k + 1)
        = (lfsr_next_bit s width taps).1 * 2 ^ j +
          out_sum width taps (lfsr_next_bit s width taps).2 (j + 1) k from rfl,
      ← Nat.add_assoc]

theorem lfsr_next_byte_spec (seed width : Nat) (taps : List Nat) :
    lfsr_next_byte seed width taps =
      (out_sum width taps seed 0 8, lfsr_states seed width taps 8) := by
  have h := byte_fold width taps 8 0 0 seed (by norm_num)
  unfold lfsr_next_byte
  rw [List.range_eq_range', h, Nat.zero_add]

theorem out_sum_eq_sum (width : Nat) (taps : List Nat) :
    ∀ (k s j : Nat), out_sum width taps s j k =
      ((List.range k).map (fun i => lfsr_out s width taps i * 2 ^ (j + i))).sum := by
  intro k
  induction k with
  | zero => intro s j; simp [out_sum]
  | succ k ih =>
    intro s j
    rw [show out_sum width taps s j (k + 1)
        = (lfsr_next_bit s width taps).1 * 2 ^ j +
          out_sum width taps (lfsr_next_bit s width taps).2 (j + 1) k from rfl]
    rw [ih, List.range_succ_eq_map]
    rw [List.map_cons, List.sum_cons, List.map_map]
    have hhead : lfsr_out s width taps 0 * 2 ^ (j + 0) = (lfsr_next_bit s width taps).1 * 2 ^ j := by
      simp [lfsr_out, lfsr_states]
    rw [hhead]
    congr 1
    refine congrArg List.sum (List.map_congr_left ?_)
    intro i _
    simp only [Function.comp_apply, Nat.succ_eq_add_one]
    rw [lfsr_out_succ_front, show j + 1 + i = j + (i + 1) from by omega]

theorem out_sum_eight (seed width : Nat) (taps : List Nat) :
    out_sum width taps seed 0 8 =
      lfsr_out seed width taps 0 * 1 + lfsr_out seed width taps 1 * 2 +
      lfsr_out seed width taps 2 * 4 + lfsr_out seed width taps 3 * 8 +
      lfsr_out seed width taps 4 * 16 + lfsr_out seed width taps 5 * 32 +
      lfsr_out seed width taps 6 * 64 + lfsr_out seed width taps 7 * 128 := by
  rw [out_sum_eq_sum width taps 8 seed 0,
    show List.range 8 = [0, 1, 2, 3, 4, 5, 6, 7] from rfl]
  simp [List.sum_cons]
  ring

theorem byte_bit (seed width : Nat) (taps : List Nat) (i : Nat) (hi : i < 8) :
    (lfsr_next_byte seed width taps).1 / 2 ^ i % 2 = lfsr_out seed width taps i := by
  have hB : (lfsr_next_byte seed width taps).1 = out_sum width taps seed 0 8 := by
    rw [lfsr_next_byte_spec]
  have h0 := lfsr_out_le_one seed width taps 0
  have h1 := lfsr_out_le_one seed width taps 1
  have h2 := lfsr_out_le_one seed width taps 2
  have h3 := lfsr_out_le_one seed width taps 3
  have h4 := lfsr_out_le_one seed width taps 4
  have h5 := lfsr_out_le_one seed width taps 5
  have h6 := lfsr_out_le_one seed width taps 6
  have h7 := lfsr_out_le_one seed width taps 7
  rw [hB, out_sum_eight]
  interval_cases i <;> (norm_num; omega)

theorem byte_lt_256 (seed width : Nat) (taps : List Nat) :
    (lfsr_next_byte seed width taps).1 < 256 := by
  have hB : (lfsr_next_byte seed width taps).1 = out_sum width taps seed 0 8 := by
    rw [lfsr_next_byte_spec]
  have h0 := lfsr_out_le_one seed width taps 0
  have h1 := lfsr_out_le_one seed width taps 1
  have h2 := lfsr_out_le_one seed width taps 2
  have h3 := lfsr_out_le_one seed width taps 3
  have h4 := lfsr_out_le_one seed width taps 4
  have h5 := lfsr_out_le_one seed width taps 5
  have h6 := lfsr_out_le_one seed width taps 6
  have h7 := lfsr_out_le_one seed width taps 7
  rw [hB, out_sum_eight]
  omega

theorem stream_bit_eq (width : Nat) (taps : List Nat) :
    ∀ (n seed j : Nat), j < 8 * n →
      stream_bit (lfsr_stream seed width taps n) j = lfsr_out seed width taps j := by
  intro n
  induction n with
  | zero => intro seed j h; omega
  | succ n ih =>
    intro seed j h
    rw [lfsr_stream_succ]
    by_cases hj : j < 8
    · unfold stream_bit
      rw [Nat.div_eq_of_lt hj, Nat.mod_eq_of_lt hj, List.getD_cons_zero]
      exact byte_bit seed width taps j hj
    · push_neg at hj
      have hj8 : j - 8 < 8 * n := by omega
      have hsb :
          stream_bit ((lfsr_next_byte seed width taps).1 ::
            lfsr_stream (lfsr_next_byte seed width taps).2 width taps n) j
          = stream_bit (lfsr_stream (lfsr_next_byte seed width taps).2 width taps n) (j - 8) := by
        unfold stream_bit
        rw [show j / 8 = (j - 8) / 8 + 1 from by omega, show j % 8 = (j - 8) % 8 from by omega,
          List.getD_cons_succ]
      rw [hsb, ih _ _ hj8,
        show (lfsr_next_byte seed width taps).2 = lfsr_states seed width taps 8 from by
          rw [lfsr_next_byte_spec],
        lfsr_out_add]
      congr 1
      omega

/-! ### The register-2 linear recurrence -/

theorem taps2_val : taps2 = [14, 8] := rfl

theorem taps1_val : taps1 = [10, 5] := rfl

theorem countP_taps2 (x : Nat) :
    taps2.countP (fun p => x.testBit p) = x / 2 ^ 14 % 2 + x / 2 ^ 8 % 2 := by
  have htb : ∀ p : Nat, (if x.testBit p then 1 else 0) = x / 2 ^ p % 2 := by
    intro p
    rw [Nat.testBit_to_div_mod]
    rcases Nat.mod_two_eq_zero_or_one (x / 2 ^ p) with h | h <;> simp [h]
  rw [taps2_val]
  rw [List.countP_cons, List.countP_cons, List.countP_nil]
  have h14 := htb 14
  have h8 := htb 8
  simp only [decide_eq_true_eq] at *
  omega

theorem add_shift_bit {j k : Nat} (x b : Nat) (hjk : j < k) (_hb : b ≤ 1) :
    (x + b * 2 ^ k) / 2 ^ j % 2 = x / 2 ^ j % 2 := by
  have hk : 2 ^ k = 2 ^ ((k - j - 1) + 1) * 2 ^ j := by
    rw [← pow_add]
    congr 1
    omega
  rw [hk, ← Nat.mul_assoc,
    Nat.add_mul_div_right _ _ (Nat.pos_pow_of_pos j (by norm_num))]
  have heven : b * 2 ^ ((k - j - 1) + 1) = 2 * (b * 2 ^ (k - j - 1)) := by
    rw [pow_succ]
    ring
  rw [heven]
  omega

theorem lfsr_states_lt (seed width : Nat) (taps : List Nat) (hs : seed < 2 ^ width) :
    ∀ t, lfsr_states seed width taps t < 2 ^ width
  | 0 => hs
  | _t + 1 => lfsr_next_bit_snd_lt _ _ _

theorem reg2_state_succ (seed t : Nat) (hs : seed < 2 ^ 19) :
    lfsr_states seed 19 taps2 (t + 1) =
      lfsr_states seed 19 taps2 t / 2 +
        (lfsr_states seed 19 taps2 t / 2 ^ 14 % 2 +
          lfsr_states seed 19 taps2 t / 2 ^ 8 % 2) % 2 * 2 ^ 18 := by
  have hst : lfsr_states seed 19 taps2 t < 2 ^ 19 := lfsr_states_lt seed 19 taps2 hs t
  show (lfsr_next_bit (lfsr_states seed 19 taps2 t) 19 taps2).2 = _
  rw [lfsr_next_bit_eq _ 19 taps2 (by norm_num) hst, countP_taps2]

theorem reg2_out_eq (seed : Nat) (hs : seed < 2 ^ 19) :
    ∀ p, p ≤ 18 → ∀ t,
      lfsr_out seed 19 taps2 (t + p) = lfsr_states seed 19 taps2 t / 2 ^ p % 2 := by
  intro p
  induction p with
  | zero =>
    intro _ t
    show (lfsr_next_bit (lfsr_states seed 19 taps2 t) 19 taps2).1 = _
    show lfsr_states seed 19 taps2 t &&& 1 = _
    rw [Nat.and_one_is_mod, pow_zero, Nat.div_one]
  | succ p ih =>
    intro hp t
    have hp17 : p < 18 := by omega
    rw [show t + (p + 1) = (t + 1) + p from by omega, ih (by omega) (t + 1),
      reg2_state_succ seed t hs,
      add_shift_bit _ _ hp17 (by omega),
      Nat.div_div_eq_div_mul,
      show 2 * 2 ^ p = 2 ^ (p + 1) from by rw [pow_succ]; ring]

theorem reg2_recurrence (seed : Nat) (hs : seed < 2 ^ 19) (t : Nat) :
    lfsr_out seed 19 taps2 (t + 19) =
      (lfsr_out seed 19 taps2 (t + 14) + lfsr_out seed 19 taps2 (t + 8)) % 2 := by
  have hst : lfsr_states seed 19 taps2 t < 2 ^ 19 := lfsr_states_lt seed 19 taps2 hs t
  rw [show t + 19 = (t + 1) + 18 from by omega,
    reg2_out_eq seed hs 18 (by omega) (t + 1),
    reg2_out_eq seed hs 14 (by omega) t,
    reg2_out_eq seed hs 8 (by omega) t,
    reg2_state_succ seed t hs,
    Nat.add_mul_div_right _ _ (show (0:Nat) < 2 ^ 18 from by positivity),
    Nat.div_eq_of_lt (show lfsr_states seed 19 taps2 t / 2 < 2 ^ 18 from by omega),
    Nat.zero_add]
  omega

theorem rec_violated_sound (n : Nat) (bytes : List Nat) (h : rec_violated n bytes = true) :
    ∀ seed, seed < 2 ^ 19 → lfsr_stream seed 19 taps2 n ≠ bytes := by
  intro seed hs heq
  unfold rec_violated at h
  rw [List.any_eq_true] at h
  obtain ⟨t, ht, hbit⟩ := h
  rw [List.mem_range] at ht
  rw [bne_iff_ne] at hbit
  apply hbit
  rw [← heq,
    stream_bit_eq 19 taps2 n seed (t + 19) (by omega),
    stream_bit_eq 19 taps2 n seed (t + 14) (by omega),
    stream_bit_eq 19 taps2 n seed (t + 8) (by omega),
    reg2_recurrence seed hs t,
    xor_small (lfsr_out_le_one seed 19 taps2 (t + 14)) (lfsr_out_le_one seed 19 taps2 (t + 8))]

theorem check_pow_sound :
    ∀ d a, check_pow a d = true →
      ∀ i, i < 2 ^ d → rec_violated 4 (needed_seq CEX_HEADER (a + i)) = true := by
  intro d
  induction d with
  | zero =>
    intro a h i hi
    interval_cases i
    simpa [check_pow] using h
  | succ d ih =>
    intro a h i hi
    rw [show check_pow a (d + 1) = (check_pow a d && check_pow (a + 2 ^ d) d) from rfl,
      Bool.and_eq_true] at h
    by_cases hid : i < 2 ^ d
    · exact ih a h.1 i hid
    · have hstep := ih (a + 2 ^ d) h.2 (i - 2 ^ d) (by rw [pow_succ] at hi; omega)
      rwa [show a + 2 ^ d + (i - 2 ^ d) = a + i from by omega] at hstep

/-! ### Recovery-table lemmas -/

theorem table_find_nil (key : List Nat) : table_find [] key = none := rfl

theorem table_find_singleton (k0 : List Nat) (v0 : Nat) (key : List Nat) :
    table_find [(k0, v0)] key = if k0 = key then some v0 else none := rfl

theorem table_find_append_of_some (t1 t2 : List (List Nat × Nat)) (key : List Nat) (v : Nat)
    (h : table_find t1 key = some v) : table_find (t1 ++ t2) key = some v := by
  induction t1 with
  | nil => simp [table_find] at h
  | cons e t1 ih =>
    obtain ⟨k, w⟩ := e
    by_cases hk : k = key
    · simp only [table_find, if_pos hk] at h ⊢
      exact h
    · simp only [table_find, if_neg hk] at h ⊢
      exact ih h

theorem table_find_append_of_none (t1 t2 : List (List Nat × Nat)) (key : List Nat)
    (h : table_find t1 key = none) : table_find (t1 ++ t2) key = table_find t2 key := by
  induction t1 with
  | nil => rfl
  | cons e t1 ih =>
    obtain ⟨k, w⟩ := e
    by_cases hk : k = key
    · simp only [table_find, if_pos hk] at h
      exact Option.noConfusion h
    · simp only [table_find, if_neg hk] at h ⊢
      exact ih h

theorem exists_least_seed2 (n F : Nat) (key : List Nat)
    (h : ∃ u, u < F ∧ lfsr_stream u WIDTH_REG2 taps2 n = key) :
    ∃ v, least_seed2 n F key v := by
  have hex : ∃ u, lfsr_stream u WIDTH_REG2 taps2 n = key := ⟨h.choose, h.choose_spec.2⟩
  refine ⟨Nat.find hex, ?_, Nat.find_spec hex, fun u hu => Nat.find_min hex hu⟩
  have hle : Nat.find hex ≤ h.choose := Nat.find_min' hex h.choose_spec.2
  exact lt_of_le_of_lt hle h.choose_spec.1

theorem least_seed2_unique {n F : Nat} {key : List Nat} {v v' : Nat}
    (h : least_seed2 n F key v) (h' : least_seed2 n F key v') : v = v' := by
  obtain ⟨_, hv, hmin⟩ := h
  obtain ⟨_, hv', hmin'⟩ := h'
  rcases Nat.lt_trichotomy v v' with hlt | heq | hgt
  · exact absurd hv (hmin' v hlt)
  · exact heq
  · exact absurd hv' (hmin v' hgt)

theorem table_insert_step (n start : Nat) (tbl : List (List Nat × Nat))
    (h : table_complete n start tbl) :
    table_complete n (start + 1)
      (if (table_find tbl (lfsr_stream start WIDTH_REG2 taps2 n)).isSome then tbl
       else tbl ++ [(lfsr_stream start WIDTH_REG2 taps2 n, start)]) := by
  by_cases hpres : (table_find tbl (lfsr_stream start WIDTH_REG2 taps2 n)).isSome
  · rw [if_pos hpres]
    obtain ⟨v0, hv0⟩ := Option.isSome_iff_exists.mp hpres
    obtain ⟨hv01, hv02, hv03⟩ := (h _ v0).mp hv0
    intro key v
    constructor
    · intro hf
      obtain ⟨hp1, hp2, hp3⟩ := (h key v).mp hf
      exact ⟨by omega, hp2, hp3⟩
    · rintro ⟨hvlt, hstream, hmin⟩
      rcases Nat.lt_or_ge v start with hvs | hvs
      · exact (h key v).mpr ⟨hvs, hstream, hmin⟩
      · exfalso
        have hveq : v = start := by omega
        have hkey : lfsr_stream start WIDTH_REG2 taps2 n = key := by
          rw [← hveq]; exact hstream
        exact hmin v0 (by omega) (hv02.trans hkey)
  · rw [if_neg hpres]
    have hnone0 : table_find tbl (lfsr_stream start WIDTH_REG2 taps2 n) = none := by
      rcases hx : table_find tbl (lfsr_stream start WIDTH_REG2 taps2 n) with _ | w
      · rfl
      · exact absurd (by rw [hx]; rfl) hpres
    intro key v
    constructor
    · intro hf
      rcases hfind : table_find tbl key with _ | w
      · rw [table_find_append_of_none _ _ _ hfind, table_find_singleton] at hf
        by_cases hkey : lfsr_stream start WIDTH_REG2 taps2 n = key
        · rw [if_pos hkey] at hf
          have hveq : start = v := by simpa using hf
          subst hveq
          refine ⟨by omega, hkey, ?_⟩
          intro u hu hequ
          obtain ⟨v', hv'⟩ := exists_least_seed2 n start key ⟨u, hu, hequ⟩
          have hsome := (h key v').mpr hv'
          rw [hfind] at hsome
          exact Option.noConfusion hsome
        · rw [if_neg hkey] at hf
          simp at hf
      · rw [table_find_append_of_some _ _ _ _ hfind] at hf
        have hwv : w = v := by simpa using hf
        subst hwv
        obtain ⟨hp1, hp2, hp3⟩ := (h key w).mp hfind
        exact ⟨by omega, hp2, hp3⟩
    · rintro ⟨hvlt, hstream, hmin⟩
      rcases Nat.lt_or_ge v start with hvs | hvs
      · exact table_find_append_of_some _ _ _ _ ((h key v).mpr ⟨hvs, hstream, hmin⟩)
      · have hveq : v = start := by omega
        have hnone : table_find tbl key = none := by
          rcases hx : table_find tbl key with _ | w
          · rfl
          · obtain ⟨hp1, hp2, hp3⟩ := (h key w).mp hx
            exact absurd hp2 (hmin w (by omega))
        rw [table_find_append_of_none _ _ _ hnone, table_find_singleton,
          if_pos (by rw [← hveq]; exact hstream), hveq]

theorem build_table_invariant (n : Nat) :
    ∀ (fuel start : Nat) (tbl : List (List Nat × Nat)),
      table_complete n start tbl →
      table_complete n (start + fuel) (build_table n start fuel tbl) := by
  intro fuel
  induction fuel with
  | zero => intro start tbl h; exact h
  | succ fuel ih =>
    intro start tbl h
    rw [show build_table n start (fuel + 1) tbl
        = build_table n (start + 1) fuel
            (if (table_find tbl (lfsr_stream start WIDTH_REG2 taps2 n)).isSome then tbl
             else tbl ++ [(lfsr_stream start WIDTH_REG2 taps2 n, start)]) from rfl,
      show start + (fuel + 1) = (start + 1) + fuel from by omega]
    exact ih (start + 1) _ (table_insert_step n start tbl h)

theorem table_complete_nil (n : Nat) : table_complete n 0 [] := by
  intro key v
  constructor
  · intro hf
    exact Option.noConfusion hf
  · rintro ⟨hv, _, _⟩
    omega

theorem full_table_complete (n : Nat) :
    table_complete n (2 ^ WIDTH_REG2) (build_table n 0 (1 <<< WIDTH_REG2) []) := by
  have h := build_table_invariant n (1 <<< WIDTH_REG2) 0 [] (table_complete_nil n)
  rw [Nat.zero_add, show (1 <<< WIDTH_REG2 : Nat) = 2 ^ WIDTH_REG2 from by decide] at h
  exact h

theorem table_find_none_char (n F : Nat) (tbl : List (List Nat × Nat))
    (hc : table_complete n F tbl) (key : List Nat) :
    table_find tbl key = none ↔
      ∀ u, u < F → lfsr_stream u WIDTH_REG2 taps2 n ≠ key := by
  constructor
  · intro hnone u hu hequ
    obtain ⟨v', hv'⟩ := exists_least_seed2 n F key ⟨u, hu, hequ⟩
    have hsome := (hc key v').mpr hv'
    rw [hnone] at hsome
    exact Option.noConfusion hsome
  · intro hall
    rcases hx : table_find tbl key with _ | w
    · rfl
    · obtain ⟨hp1, hp2, _⟩ := (hc key w).mp hx
      exact absurd hp2 (hall w hp1)

/-! ### Search-loop characterisation -/

theorem mitm_search_some_iff (header : List Nat) (tbl : List (List Nat × Nat)) :
    ∀ (fuel start s1 s2 : Nat),
      mitm_search header tbl start fuel = some (s1, s2) ↔
        (start ≤ s1 ∧ s1 < start + fuel ∧
          table_find tbl (needed_seq header s1) = some s2 ∧
          ∀ u, start ≤ u → u < s1 → table_find tbl (needed_seq header u) = none) := by
  intro fuel
  induction fuel with
  | zero =>
    intro start s1 s2
    constructor
    · intro hf
      exact Option.noConfusion hf
    · rintro ⟨h1, h2, _, _⟩
      omega
  | succ fuel ih =>
    intro start s1 s2
    rw [show mitm_search header tbl start (fuel + 1)
        = (match table_find tbl (needed_seq header start) with
           | some seed2 => some (start, seed2)
           | none => mitm_search header tbl (start + 1) fuel) from rfl]
    rcases hx : table_find tbl (needed_seq header start) with _ | w
    · simp only [hx]
      rw [ih (start + 1) s1 s2]
      constructor
      · rintro ⟨h1, h2, h3, h4⟩
        refine ⟨by omega, by omega, h3, ?_⟩
        intro u hu1 hu2
        by_cases hus : u = start
        · rw [hus]
          exact hx
        · exact h4 u (by omega) hu2
      · rintro ⟨h1, h2, h3, h4⟩
        have hs1 : start + 1 ≤ s1 := by
          rcases Nat.eq_or_lt_of_le h1 with heq | hlt
        
          · exfalso
            rw [← heq] at h3
            rw [hx] at h3
            exact Option.noConfusion h3
          · omega
        exact ⟨hs1, by omega, h3, fun u hu1 hu2 => h4 u (by omega) hu2⟩
    · simp only [hx]
      constructor
      · intro hf
        rw [Option.some.injEq, Prod.mk.injEq] at hf
        obtain ⟨rfl, rfl⟩ := hf
        exact ⟨Nat.le_refl _, by omega, hx, fun u hu1 hu2 => absurd hu2 (by omega)⟩
      · rintro ⟨h1, h2, h3, h4⟩
        have hs1 : s1 = start := by
          by_contra hne
          have hlt : start < s1 := by omega
          have hn := h4 start (Nat.le_refl _) hlt
          rw [hx] at hn
          exact Option.noConfusion hn
        subst hs1
        rw [hx, Option.some.injEq] at h3
        rw [h3]
  
theorem mitm_search_none_iff (header : List Nat) (tbl : List (List Nat × Nat)) :
    ∀ (fuel start : Nat),
      mitm_search header tbl start fuel = none ↔
        ∀ u, start ≤ u → u < start + fuel →
          table_find tbl (needed_seq header u) = none := by
  intro fuel
  induction fuel with
  | zero =>
    intro start
    constructor
    · intro _ u h1 h2
      omega
    · intro _
      rfl
  | succ fuel ih =>
    intro start
    rw [show mitm_search header tbl start (fuel + 1)
        = (match table_find tbl (needed_seq header start) with
           | some seed2 => some (start, seed2)
           | none => mitm_search header tbl (start + 1) fuel) from rfl]
    rcases hx : table_find tbl (needed_seq header start) with _ | w
    · simp only [hx]
      rw [ih (start + 1)]
      constructor
      · intro hall u h1 h2
        by_cases hus : u = start
        · rw [hus]
          exact hx
        · exact hall u (by omega) (by omega)
      · intro hall u h1 h2
        exact hall u (by omega) (by omega)
    · simp only [hx]
      constructor
      · intro hf
        exact Option.noConfusion hf
      · intro hall
        have hn := hall start (Nat.le_refl _) (by omega)
        rw [hx] at hn
        exact Option.noConfusion hn

/-! ### Facts about returned pairs -/

theorem mitm_recover_seeds_def (header : List Nat) :
    mitm_recover_seeds header =
      mitm_search header (build_table header.length 0 (1 <<< WIDTH_REG2) []) 0
        (1 <<< WIDTH_REG1) := rfl

theorem shiftLeft_width1 : (1 <<< WIDTH_REG1 : Nat) = 2 ^ WIDTH_REG1 := by decide

theorem mitm_some_facts (header : List Nat) (s1 s2 : Nat)
    (h : mitm_recover_seeds header = some (s1, s2)) :
    s1 < 2 ^ WIDTH_REG1 ∧
    least_seed2 header.length (2 ^ WIDTH_REG2) (needed_seq header s1) s2 ∧
    ∀ u, u < s1 → ∀ t, t < 2 ^ WIDTH_REG2 →
      lfsr_stream t WIDTH_REG2 taps2 header.length ≠ needed_seq header u := by
  have hc := full_table_complete header.length
  rw [mitm_recover_seeds_def, mitm_search_some_iff] at h
  obtain ⟨h1, h2, h3, h4⟩ := h
  rw [Nat.zero_add, shiftLeft_width1] at h2
  refine ⟨h2, (hc _ s2).mp h3, ?_⟩
  intro u hu t ht
  have hnone := h4 u (Nat.zero_le _) hu
  rw [table_find_none_char header.length _ _ hc] at hnone
  exact hnone t ht

theorem needed_seq_le (header : List Nat) (s1 : Nat) :
    ∀ x ∈ needed_seq header s1, x ≤ 254 := by
  unfold needed_seq
  generalize lfsr_stream s1 WIDTH_REG1 taps1 header.length = ys
  induction header generalizing ys with
  | nil =>
    intro x hx
    simp at hx
  | cons k hd ih =>
    intro x hx
    rcases ys with _ | ⟨y, ys⟩
    · simp at hx
    · rw [List.zipWith_cons_cons] at hx
      rcases List.mem_cons.mp hx with hx | hx
      · subst hx
        have h1 : (0:Int) ≤ ((k : Int) - y) % 255 := Int.emod_nonneg _ (by norm_num)
        have h2 : ((k : Int) - y) % 255 < 255 := Int.emod_lt_of_pos _ (by norm_num)
        omega
      · exact ih ys x hx

theorem zipWith_mod255_le :
    ∀ (xs ys : List Nat), ∀ x ∈ List.zipWith (fun a b => (a + b) % 255) xs ys, x ≤ 254 := by
  intro xs
  induction xs with
  | nil =>
    intro ys x hx
    simp at hx
  | cons a xs ih =>
    intro ys x hx
    rcases ys with _ | ⟨b, ys⟩
    · simp at hx
    · rw [List.zipWith_cons_cons] at hx
      rcases List.mem_cons.mp hx with hx | hx
      · subst hx
        omega
      · exact ih ys x hx

theorem gfk_eq_combined (nbytes : Nat) :
    ∀ s1 s2 : Nat, generate_full_keystream s1 s2 nbytes = combined_header s1 s2 nbytes := by
  induction nbytes with
  | zero => intro s1 s2; rfl
  | succ n ih =>
    intro s1 s2
    show generate_full_keystream_go s1 s2 (n + 1) = _
    rw [show generate_full_keystream_go s1 s2 (n + 1)
        = ((lfsr_next_byte s1 WIDTH_REG1 taps1).1 + (lfsr_next_byte s2 WIDTH_REG2 taps2).1) % 255 ::
          generate_full_keystream_go (lfsr_next_byte s1 WIDTH_REG1 taps1).2
            (lfsr_next_byte s2 WIDTH_REG2 taps2).2 n from rfl]
    unfold combined_header
    rw [lfsr_stream_succ, lfsr_stream_succ, List.zipWith_cons_cons]
    congr 1
    exact ih _ _

theorem combined_header_bytes_le (s1 s2 n : Nat) :
    ∀ x ∈ combined_header s1 s2 n, x ≤ 254 := by
  intro x hx
  exact zipWith_mod255_le _ _ x hx

theorem combined_header_length (s1 s2 n : Nat) :
    (combined_header s1 s2 n).length = n := by
  unfold combined_header
  rw [List.length_zipWith, lfsr_stream_length, lfsr_stream_length]
  omega

theorem gfk_bytes_le (s1 s2 n : Nat) :
    ∀ x ∈ generate_full_keystream s1 s2 n, x ≤ 254 := by
  rw [gfk_eq_combined]
  exact combined_header_bytes_le s1 s2 n

theorem zip_comb_needed :
    ∀ (hdr xs : List Nat), (∀ x ∈ hdr, x ≤ 254) → xs.length = hdr.length →
      List.zipWith (fun b1 b2 => (b1 + b2) % 255) xs
        (List.zipWith (fun (k b1 : Nat) => (((k : Int) - (b1 : Int)) % 255).toNat) hdr xs)
        = hdr := by
  intro hdr
  induction hdr with
  | nil =>
    intro xs _ _
    simp
  | cons k hdr ih =>
    intro xs hb hlen
    rcases xs with _ | ⟨b1, xs⟩
    · simp at hlen
    · rw [List.zipWith_cons_cons, List.zipWith_cons_cons]
      congr 1
      · have hk : k ≤ 254 := hb k (List.mem_cons_self k hdr)
        have h1 : (0:Int) ≤ ((k : Int) - b1) % 255 := Int.emod_nonneg _ (by norm_num)
        have h2 : ((k : Int) - b1) % 255 < 255 := Int.emod_lt_of_pos _ (by norm_num)
        have hr : ((((k : Int) - b1) % 255).toNat : Int) = ((k : Int) - b1) % 255 :=
          Int.toNat_of_nonneg h1
        omega
      · exact ih xs (fun x hx => hb x (List.mem_cons_of_mem _ hx)) (by simpa using hlen)

theorem hit_faithful (header : List Nat) (s1 s2 : Nat)
    (hbytes : ∀ x ∈ header, x ≤ 254)
    (hstream : lfsr_stream s2 WIDTH_REG2 taps2 header.length = needed_seq header s1) :
    generate_full_keystream s1 s2 header.length = header := by
  rw [gfk_eq_combined]
  unfold combined_header
  rw [hstream]
  unfold needed_seq
  exact zip_comb_needed header _ hbytes (lfsr_stream_length _ _ _ _)

theorem mitm_hit_at_zero (header : List Nat)
    (h : needed_seq header 0 = List.replicate header.length 0) :
    mitm_recover_seeds header = some (0, 0) := by
  have hc := full_table_complete header.length
  rw [mitm_recover_seeds_def, mitm_search_some_iff]
  have hfind : table_find (build_table header.length 0 (1 <<< WIDTH_REG2) [])
      (needed_seq header 0) = some 0 := by
    apply (hc _ 0).mpr
    refine ⟨Nat.pos_pow_of_pos WIDTH_REG2 (by norm_num), ?_,
      fun u hu => absurd hu (Nat.not_lt_zero u)⟩
    rw [h, lfsr_stream_zero_seed]
  exact ⟨Nat.le_refl 0, by decide, hfind, fun u h1 h2 => absurd h2 (by omega)⟩

theorem mitm_hit_exists (header : List Nat) (a b : Nat)
    (ha : a < 2 ^ WIDTH_REG1) (hb2 : b < 2 ^ WIDTH_REG2)
    (hneed : lfsr_stream b WIDTH_REG2 taps2 header.length = needed_seq header a) :
    ∃ p : Nat × Nat, mitm_recover_seeds header = some p := by
  rcases hm : mitm_recover_seeds header with _ | p
  · exfalso
    rw [mitm_recover_seeds_def, mitm_search_none_iff] at hm
    have hnone := hm a (Nat.zero_le _) (by rw [Nat.zero_add, shiftLeft_width1]; exact ha)
    rw [table_find_none_char header.length _ _ (full_table_complete header.length)] at hnone
    exact hnone b hb2 hneed
  · exact ⟨p, rfl⟩

theorem zip_needed_comb :
    ∀ (xs ys : List Nat), (∀ y ∈ ys, y ≤ 254) → xs.length = ys.length →
      List.zipWith (fun (k b1 : Nat) => (((k : Int) - (b1 : Int)) % 255).toNat)
        (List.zipWith (fun b1 b2 => (b1 + b2) % 255) xs ys) xs = ys := by
  intro xs
  induction xs with
  | nil =>
    intro ys hy hlen
    rcases ys with _ | ⟨y, ys⟩
    · rfl
    · simp at hlen
  | cons x xs ih =>
    intro ys hy hlen
    rcases ys with _ | ⟨y, ys⟩
    · simp at hlen
    · rw [List.zipWith_cons_cons, List.zipWith_cons_cons]
      congr 1
      · have hy254 : y ≤ 254 := hy y (List.mem_cons_self y ys)
        have key : ((((x + y) % 255 : Nat) : Int) - (x : Int)) % 255 = (y : Int) := by
          omega
        rw [key]
        exact Int.toNat_natCast y
      · exact ih ys (fun z hz => hy z (List.mem_cons_of_mem _ hz)) (by simpa using hlen)

theorem needed_of_combined (a b n : Nat)
    (hclean : ∀ x ∈ lfsr_stream b WIDTH_REG2 taps2 n, x ≤ 254) :
    needed_seq (combined_header a b n) a = lfsr_stream b WIDTH_REG2 taps2 n := by
  unfold needed_seq
  rw [combined_header_length]
  unfold combined_header
  exact zip_needed_comb _ _ hclean (by rw [lfsr_stream_length, lfsr_stream_length])

theorem getD_zipWith_nat (f : Nat → Nat → Nat) :
    ∀ (xs ys : List Nat) (i : Nat), i < xs.length → i < ys.length →
      (List.zipWith f xs ys).getD i 0 = f (xs.getD i 0) (ys.getD i 0) := by
  intro xs
  induction xs with
  | nil =>
    intro ys i h _
    simp at h
  | cons a xs ih =>
    intro ys i h1 h2
    rcases ys with _ | ⟨b, ys⟩
    · simp at h2
    · rcases i with _ | i
      · rw [List.zipWith_cons_cons]
        rfl
      · rw [List.zipWith_cons_cons]
        simp only [List.getD_cons_succ]
        exact ih ys i (by simpa using h1) (by simpa using h2)

/-! ### Claims -/

/-- Claim C1: whenever `mitm_recover_seeds header` returns a pair
`(seed1, seed2)`, `seed1` is the smallest register-1 seed below `2 ^ 12`
whose needed sequence occurs as a key of the recovery table — i.e. is the
first-`n`-byte stream of some register-2 seed below `2 ^ 19` — and `seed2`
is the smallest register-2 seed below `2 ^ 19` whose first-`n`-byte stream
equals that needed sequence (the table keeps the smallest seed per
sequence). -/
theorem C1_mitm_returns_least_seeds (header : List Nat) (s1 s2 : Nat)
    (h : mitm_recover_seeds header = some (s1, s2)) :
    (s1 < 2 ^ WIDTH_REG1 ∧
      (∃ t, t < 2 ^ WIDTH_REG2 ∧
        lfsr_stream t WIDTH_REG2 taps2 header.length = needed_seq header s1) ∧
      ∀ u, u < s1 →
        ¬ ∃ t, t < 2 ^ WIDTH_REG2 ∧
            lfsr_stream t WIDTH_REG2 taps2 header.length = needed_seq header u) ∧
    (s2 < 2 ^ WIDTH_REG2 ∧
      lfsr_stream s2 WIDTH_REG2 taps2 header.length = needed_seq header s1 ∧
      ∀ t, t < s2 → lfsr_stream t WIDTH_REG2 taps2 header.length ≠ needed_seq header s1) := by
  obtain ⟨h1, ⟨hq1, hq2, hq3⟩, h3⟩ := mitm_some_facts header s1 s2 h
  refine ⟨⟨h1, ⟨s2, hq1, hq2⟩, ?_⟩, hq1, hq2, hq3⟩
  rintro u hu ⟨t, ht, hseq⟩
  exact h3 u hu t ht hseq

/-- Witness for C1 at the empty header: `mitm_recover_seeds [] = some (0, 0)`
and the returned register-2 seed is the least stream producer. -/
theorem C1_mitm_returns_least_seeds_witness :
    mitm_recover_seeds ([] : List Nat) = some (0, 0) ∧
    (0 < 2 ^ WIDTH_REG2 ∧
      lfsr_stream 0 WIDTH_REG2 taps2 ([] : List Nat).length = needed_seq [] 0 ∧
      ∀ t, t < 0 →
        lfsr_stream t WIDTH_REG2 taps2 ([] : List Nat).length ≠ needed_seq [] 0) := by
  have hm : mitm_recover_seeds ([] : List Nat) = some (0, 0) := mitm_hit_at_zero [] rfl
  exact ⟨hm, (C1_mitm_returns_least_seeds [] 0 0 hm).2⟩

/-- Claim C3 counterexample: the header `[255]` cannot be produced by any
seed pair within the widths (every combined keystream byte is ≤ 254), yet
`mitm_recover_seeds [255]` does not report the not-found outcome: the search
finds the spurious pair `(0, 0)` because `needed[0] = (255 - 0) % 255 = 0`
is register 2's seed-0 stream. -/
theorem C3_counterexample :
    no_pair_produces [255] ∧ mitm_recover_seeds [255] = some (0, 0) := by
  constructor
  · intro s1 s2 _ _ heq
    have h255 : (255 : Nat) ∈ generate_full_keystream s1 s2 ([255] : List Nat).length := by
      rw [heq]
      exact List.mem_cons_self 255 []
    exact absurd (gfk_bytes_le s1 s2 _ 255 h255) (by norm_num)
  · exact mitm_hit_at_zero [255] (by decide)

/-- Claim C3 (amended): for every header whose bytes all lie in `[0, 254]`,
any pair returned by `mitm_recover_seeds` lies within the configured widths
and regenerates the header exactly; consequently, when no seed pair within
the widths can produce such a header, the search exhausts the seed1 space
and returns the not-found outcome (`none`, Python's fall-through `None`) —
it cannot return a pair, and being a total function it neither raises nor
hangs.  (Headers containing a byte 255 can instead yield a spurious pair.) -/
theorem C3_inrange_pair_is_genuine (header : List Nat) (s1 s2 : Nat)
    (hbytes : ∀ x ∈ header, x ≤ 254)
    (h : mitm_recover_seeds header = some (s1, s2)) :
    s1 < 2 ^ WIDTH_REG1 ∧ s2 < 2 ^ WIDTH_REG2 ∧
      generate_full_keystream s1 s2 header.length = header := by
  obtain ⟨h1, ⟨hq1, hq2, _⟩, _⟩ := mitm_some_facts header s1 s2 h
  exact ⟨h1, hq1, hit_faithful header s1 s2 hbytes hq2⟩

/-- Witness for the amended C3 at header `[0]`. -/
theorem C3_inrange_pair_is_genuine_witness :
    (∀ x ∈ ([0] : List Nat), x ≤ 254) ∧
    mitm_recover_seeds [0] = some (0, 0) ∧
    (0 < 2 ^ WIDTH_REG1 ∧ 0 < 2 ^ WIDTH_REG2 ∧
      generate_full_keystream 0 0 ([0] : List Nat).length = [0]) := by
  have hm : mitm_recover_seeds [0] = some (0, 0) := mitm_hit_at_zero [0] (by decide)
  exact ⟨by decide, hm, C3_inrange_pair_is_genuine [0] 0 0 (by decide) hm⟩

/-- Claim C4 counterexample: no tap validation exists — for width 12 and the
out-of-range tap 0, `convert_taps` does not fail with any error; it returns
the offset 12, which lies outside `[0, 11]`. -/
theorem C4_counterexample :
    convert_taps [0] (12 : Int) = [12] ∧ ((12 : Int) < 0 ∨ (12 : Int) - 1 < 12) := by
  constructor
  · decide
  · right
    norm_num

/-- Claim C4 (amended): `convert_taps` performs no validation and never
fails: for every width and tap list it returns, in order, the offset
`(w - 1) - (t - 1) = w - t` for each tap `t`, including out-of-range taps;
for a tap outside `[1, w]` the produced offset falls outside `[0, w - 1]`.
No `InvalidTapError` exists in the code. -/
theorem C4_no_tap_validation (w : Int) (raw : List Int) :
    convert_taps raw w = raw.map (fun t => w - t) ∧
    ∀ t ∈ raw, (t < 1 ∨ w < t) → (w - t < 0 ∨ w - 1 < w - t) := by
  constructor
  · exact List.map_congr_left (fun t _ => by ring)
  · intro t _ ht
    rcases ht with h | h
    · right
      omega
    · left
      omega

/-- Witness for the amended C4 at width 12, raw tap 0. -/
theorem C4_no_tap_validation_witness :
    ((0 : Int) < 1 ∨ (12 : Int) < 0) ∧
    ((12 : Int) - 0 < 0 ∨ (12 : Int) - 1 < 12 - 0) := by
  refine ⟨Or.inl (by norm_num), ?_⟩
  exact (C4_no_tap_validation 12 [0]).2 0 (by simp) (Or.inl (by norm_num))

/-- Claim C5: for a state below `2 ^ width`, `width ≥ 1` and tap offsets
within `[0, width - 1]`, the transition returns the least-significant bit
of the state together with the new state
`state / 2 + feedback * 2 ^ (width - 1)` — the right shift with the
feedback bit (the parity of the set tap bits, i.e. their XOR) inserted at
position `width - 1` — and the new state is below `2 ^ width` (the mask
keeps it so after every transition). -/
theorem C5_next_bit_spec (state width : Nat) (taps : List Nat)
    (hw : 1 ≤ width) (hs : state < 2 ^ width)
    (_htaps : ∀ p ∈ taps, p ≤ width - 1) :
    lfsr_next_bit state width taps =
      (state % 2,
        state / 2 + (taps.countP (fun p => state.testBit p)) % 2 * 2 ^ (width - 1)) ∧
    (lfsr_next_bit state width taps).2 < 2 ^ width :=
  ⟨lfsr_next_bit_eq state width taps hw hs, lfsr_next_bit_snd_lt state width taps⟩

/-- Witness for C5 at state 1, width 1, taps `[0]`. -/
theorem C5_next_bit_spec_witness :
    (1 ≤ 1 ∧ (1 : Nat) < 2 ^ 1 ∧ ∀ p ∈ ([0] : List Nat), p ≤ 1 - 1) ∧
    (lfsr_next_bit 1 1 [0] =
      (1 % 2, 1 / 2 + (([0] : List Nat).countP (fun p => (1 : Nat).testBit p)) % 2 * 2 ^ (1 - 1)) ∧
      (lfsr_next_bit 1 1 [0]).2 < 2 ^ 1) := by
  exact ⟨⟨by norm_num, by norm_num, by decide⟩,
    C5_next_bit_spec 1 1 [0] (by norm_num) (by norm_num) (by decide)⟩

/-- Claim C6: byte `i` of `generate_full_keystream seed1 seed2 nbytes` is
`(b1 + b2) % 255` where `b1`, `b2` are byte `i` of the two registers'
independent streams; hence every output byte lies in `[0, 254]` (modulus
255, not 256). -/
theorem C6_gfk_combines_mod255 (seed1 seed2 nbytes i : Nat) (hi : i < nbytes) :
    (generate_full_keystream seed1 seed2 nbytes).length = nbytes ∧
    (generate_full_keystream seed1 seed2 nbytes).getD i 0 =
      ((lfsr_stream seed1 WIDTH_REG1 taps1 nbytes).getD i 0 +
        (lfsr_stream seed2 WIDTH_REG2 taps2 nbytes).getD i 0) % 255 ∧
    (generate_full_keystream seed1 seed2 nbytes).getD i 0 ≤ 254 := by
  have hlen : (generate_full_keystream seed1 seed2 nbytes).length = nbytes := by
    rw [gfk_eq_combined]
    exact combined_header_length _ _ _
  refine ⟨hlen, ?_, ?_⟩
  · rw [gfk_eq_combined]
    unfold combined_header
    exact getD_zipWith_nat _ _ _ i (by rw [lfsr_stream_length]; omega)
      (by rw [lfsr_stream_length]; omega)
  · apply gfk_bytes_le seed1 seed2 nbytes
    rw [List.getD_eq_getElem _ _ (by omega)]
    exact List.getElem_mem _

/-- Witness for C6 at seeds 1, 1, one byte, index 0. -/
theorem C6_gfk_combines_mod255_witness :
    0 < 1 ∧
    ((generate_full_keystream 1 1 1).length = 1 ∧
      (generate_full_keystream 1 1 1).getD 0 0 =
        ((lfsr_stream 1 WIDTH_REG1 taps1 1).getD 0 0 +
          (lfsr_stream 1 WIDTH_REG2 taps2 1).getD 0 0) % 255 ∧
      (generate_full_keystream 1 1 1).getD 0 0 ≤ 254) :=
  ⟨by norm_num, C6_gfk_combines_mod255 1 1 1 0 (by norm_num)⟩

/-- Claim C7: stream composability — the first `n` bytes of
`lfsr_stream seed width taps (n + m)` are `lfsr_stream seed width taps n`,
and the remaining `m` bytes are the bytes generated from the state reached
after `n` whole-byte steps (iterating `lfsr_next_byte` `n` times from the
seed). -/
theorem C7_stream_composable (seed width : Nat) (taps : List Nat) (n m : Nat) :
    lfsr_stream seed width taps (n + m) =
      lfsr_stream seed width taps n ++
        lfsr_stream (byte_states seed width taps n) width taps m ∧
    (lfsr_stream seed width taps (n + m)).take n = lfsr_stream seed width taps n ∧
    (lfsr_stream seed width taps (n + m)).drop n =
      lfsr_stream (byte_states seed width taps n) width taps m := by
  have h := lfsr_stream_add seed width taps n m
  refine ⟨h, ?_, ?_⟩
  · rw [h]
    generalize hgen : lfsr_stream seed width taps n = L
    have hl : L.length = n := by rw [← hgen, lfsr_stream_length]
    rw [← hl]
    exact @List.take_left _ L _
  · rw [h]
    generalize hgen : lfsr_stream seed width taps n = L
    have hl : L.length = n := by rw [← hgen, lfsr_stream_length]
    rw [← hl]
    exact @List.drop_left _ L _

/-- Claim C9: the all-zero state is a fixed point — from state 0 the
transition outputs bit 0 and stays at 0 for every width ≥ 1 and any tap
offsets, so seed 0 emits the all-zero byte stream of any length. -/
theorem C9_zero_state_fixed_point (width : Nat) (taps : List Nat) (n : Nat)
    (_hw : 1 ≤ width) :
    lfsr_next_bit 0 width taps = (0, 0) ∧
    lfsr_stream 0 width taps n = List.replicate n 0 :=
  ⟨lfsr_next_bit_zero width taps, lfsr_stream_zero_seed width taps n⟩

/-- Witness for C9 at width 1, taps `[0]`, two bytes. -/
theorem C9_zero_state_fixed_point_witness :
    1 ≤ 1 ∧
    (lfsr_next_bit 0 1 [0] = (0, 0) ∧ lfsr_stream 0 1 [0] 2 = List.replicate 2 0) :=
  ⟨by norm_num, C9_zero_state_fixed_point 1 [0] 2 (by norm_num)⟩

/-- Claim C10: every byte of the returned register-2 seed's first-`n`-byte
stream lies in `[0, 254]`: the table key that matched is a needed sequence,
whose entries are residues mod 255, so a register-2 seed whose stream
contains the byte 255 can never be returned. -/
theorem C10_returned_seed2_stream_bounded (header : List Nat) (s1 s2 : Nat)
    (h : mitm_recover_seeds header = some (s1, s2)) :
    ∀ x ∈ lfsr_stream s2 WIDTH_REG2 taps2 header.length, x ≤ 254 := by
  obtain ⟨_, ⟨_, hq2, _⟩, _⟩ := mitm_some_facts header s1 s2 h
  rw [hq2]
  exact needed_seq_le header s1

/-- Witness for C10 at header `[0]`. -/
theorem C10_returned_seed2_stream_bounded_witness :
    mitm_recover_seeds [0] = some (0, 0) ∧
    ∀ x ∈ lfsr_stream 0 WIDTH_REG2 taps2 ([0] : List Nat).length, x ≤ 254 := by
  have hm : mitm_recover_seeds [0] = some (0, 0) := mitm_hit_at_zero [0] (by decide)
  exact ⟨hm, C10_returned_seed2_stream_bounded [0] 0 0 hm⟩

/-- Claim C8: for width ≥ 1 and 1-based taps `t` with `1 ≤ t ≤ w` (counted
from the most-significant bit), the conversion maps each tap to the 0-based
offset `w - t` from the least-significant bit, the output preserves input
order (it is the elementwise image), and all offsets lie in `[0, w - 1]`. -/
theorem C8_convert_taps_in_range (w : Int) (raw : List Int) (_hw : 1 ≤ w)
    (ht : ∀ t ∈ raw, 1 ≤ t ∧ t ≤ w) :
    convert_taps raw w = raw.map (fun t => w - t) ∧
    ∀ o ∈ convert_taps raw w, 0 ≤ o ∧ o ≤ w - 1 := by
  have hmap : convert_taps raw w = raw.map (fun t => w - t) :=
    List.map_congr_left (fun t _ => by ring)
  refine ⟨hmap, ?_⟩
  intro o ho
  rw [hmap] at ho
  obtain ⟨t, htm, rfl⟩ := List.mem_map.mp ho
  obtain ⟨h1, h2⟩ := ht t htm
  omega

/-- Witness for C8 at the register-1 configuration (width 12, taps [2, 7]). -/
theorem C8_convert_taps_in_range_witness :
    (1 ≤ (12 : Int) ∧ ∀ t ∈ ([2, 7] : List Int), 1 ≤ t ∧ t ≤ 12) ∧
    (convert_taps [2, 7] (12 : Int) = ([2, 7] : List Int).map (fun t => 12 - t) ∧
      ∀ o ∈ convert_taps [2, 7] (12 : Int), 0 ≤ o ∧ o ≤ 12 - 1) :=
  ⟨⟨by norm_num, by decide⟩, C8_convert_taps_in_range 12 [2, 7] (by norm_num) (by decide)⟩

/-- Claim C2 (amended): the round trip holds for every header produced by a
seed pair within the widths whose register-2 stream contains no byte equal
to 255: `mitm_recover_seeds` returns a pair, and `generate_full_keystream`
on that pair reproduces the header exactly.  (If the producing register-2
stream contains a 255 byte, the combiner folds it to 0, the needed sequence
need not be any register-2 stream, and the search can miss — see the
counterexample.) -/
theorem C2_roundtrip_clean_pair (header : List Nat) (a b : Nat)
    (ha : a < 2 ^ WIDTH_REG1) (hb2 : b < 2 ^ WIDTH_REG2)
    (hclean : ∀ x ∈ lfsr_stream b WIDTH_REG2 taps2 header.length, x ≤ 254)
    (hprod : header = combined_header a b header.length) :
    ∃ s1 s2 : Nat, mitm_recover_seeds header = some (s1, s2) ∧
      generate_full_keystream s1 s2 header.length = header := by
  have hneed : lfsr_stream b WIDTH_REG2 taps2 header.length = needed_seq header a := by
    have h1 := needed_of_combined a b header.length hclean
    rw [← hprod] at h1
    exact h1.symm
  obtain ⟨p, hp⟩ := mitm_hit_exists header a b ha hb2 hneed
  obtain ⟨p1, p2⟩ := p
  obtain ⟨_, ⟨_, hq2, _⟩, _⟩ := mitm_some_facts header p1 p2 hp
  refine ⟨p1, p2, hp, hit_faithful header p1 p2 ?_ hq2⟩
  intro x hx
  rw [hprod] at hx
  exact combined_header_bytes_le _ _ _ x hx

/-- Witness for the amended C2 at the pair (0, 0) and the 1-byte header. -/
theorem C2_roundtrip_clean_pair_witness :
    ((0 : Nat) < 2 ^ WIDTH_REG1 ∧ (0 : Nat) < 2 ^ WIDTH_REG2 ∧
      (∀ x ∈ lfsr_stream 0 WIDTH_REG2 taps2 ([0] : List Nat).length, x ≤ 254) ∧
      ([0] : List Nat) = combined_header 0 0 ([0] : List Nat).length) ∧
    ∃ s1 s2 : Nat, mitm_recover_seeds [0] = some (s1, s2) ∧
      generate_full_keystream s1 s2 ([0] : List Nat).length = [0] :=
  ⟨⟨by decide, by decide, by decide, by decide⟩,
    C2_roundtrip_clean_pair [0] 0 0 (by decide) (by decide) (by decide) (by decide)⟩


theorem check_pow_merge (a d : Nat) (h1 : check_pow a d = true)
    (h2 : check_pow (a + 2 ^ d) d = true) : check_pow a (d + 1) = true := by
  show (check_pow a d && check_pow (a + 2 ^ d) d) = true
  rw [h1, h2]
  rfl

set_option maxRecDepth 100000 in
set_option maxHeartbeats 4000000 in
theorem cex_chunk_0 : check_pow 0 7 = true := by decide

set_option maxRecDepth 100000 in
set_option maxHeartbeats 4000000 in
theorem cex_chunk_1 : check_pow 128 7 = true := by decide

set_option maxRecDepth 100000 in
set_option maxHeartbeats 4000000 in
theorem cex_chunk_2 : check_pow 256 7 = true := by decide

set_option maxRecDepth 100000 in
set_option maxHeartbeats 4000000 in
theorem cex_chunk_3 : check_pow 384 7 = true := by decide

set_option maxRecDepth 100000 in
set_option maxHeartbeats 4000000 in
theorem cex_chunk_4 : check_pow 512 7 = true := by decide

set_option maxRecDepth 100000 in
set_option maxHeartbeats 4000000 in
theorem cex_chunk_5 : check_pow 640 7 = true := by decide

set_option maxRecDepth 100000 in
set_option maxHeartbeats 4000000 in
theorem cex_chunk_6 : check_pow 768 7 = true := by decide

set_option maxRecDepth 100000 in
set_option maxHeartbeats 4000000 in
theorem cex_chunk_7 : check_pow 896 7 = true := by decide

set_option maxRecDepth 100000 in
set_option maxHeartbeats 4000000 in
theorem cex_chunk_8 : check_pow 1024 7 = true := by decide

set_option maxRecDepth 100000 in
set_option maxHeartbeats 4000000 in
theorem cex_chunk_9 : check_pow 1152 7 = true := by decide

set_option maxRecDepth 100000 in
set_option maxHeartbeats 4000000 in
theorem cex_chunk_10 : check_pow 1280 7 = true := by decide

set_option maxRecDepth 100000 in
set_option maxHeartbeats 4000000 in
theorem cex_chunk_11 : check_pow 1408 7 = true := by decide

set_option maxRecDepth 100000 in
set_option maxHeartbeats 4000000 in
theorem cex_chunk_12 : check_pow 1536 7 = true := by decide

set_option maxRecDepth 100000 in
set_option maxHeartbeats 4000000 in
theorem cex_chunk_13 : check_pow 1664 7 = true := by decide

set_option maxRecDepth 100000 in
set_option maxHeartbeats 4000000 in
theorem cex_chunk_14 : check_pow 1792 7 = true := by decide

set_option maxRecDepth 100000 in
set_option maxHeartbeats 4000000 in
theorem cex_chunk_15 : check_pow 1920 7 = true := by decide

set_option maxRecDepth 100000 in
set_option maxHeartbeats 4000000 in
theorem cex_chunk_16 : check_pow 2048 7 = true := by decide

set_option maxRecDepth 100000 in
set_option maxHeartbeats 4000000 in
theorem cex_chunk_17 : check_pow 2176 7 = true := by decide

set_option maxRecDepth 100000 in
set_option maxHeartbeats 4000000 in
theorem cex_chunk_18 : check_pow 2304 7 = true := by decide

set_option maxRecDepth 100000 in
set_option maxHeartbeats 4000000 in
theorem cex_chunk_19 : check_pow 2432 7 = true := by decide

set_option maxRecDepth 100000 in
set_option maxHeartbeats 4000000 in
theorem cex_chunk_20 : check_pow 2560 7 = true := by decide

set_option maxRecDepth 100000 in
set_option maxHeartbeats 4000000 in
theorem cex_chunk_21 : check_pow 2688 7 = true := by decide

set_option maxRecDepth 100000 in
set_option maxHeartbeats 4000000 in
theorem cex_chunk_22 : check_pow 2816 7 = true := by decide

set_option maxRecDepth 100000 in
set_option maxHeartbeats 4000000 in
theorem cex_chunk_23 : check_pow 2944 7 = true := by decide

set_option maxRecDepth 100000 in
set_option maxHeartbeats 4000000 in
theorem cex_chunk_24 : check_pow 3072 7 = true := by decide

set_option maxRecDepth 100000 in
set_option maxHeartbeats 4000000 in
theorem cex_chunk_25 : check_pow 3200 7 = true := by decide

set_option maxRecDepth 100000 in
set_option maxHeartbeats 4000000 in
theorem cex_chunk_26 : check_pow 3328 7 = true := by decide

set_option maxRecDepth 100000 in
set_option maxHeartbeats 4000000 in
theorem cex_chunk_27 : check_pow 3456 7 = true := by decide

set_option maxRecDepth 100000 in
set_option maxHeartbeats 4000000 in
theorem cex_chunk_28 : check_pow 3584 7 = true := by decide

set_option maxRecDepth 100000 in
set_option maxHeartbeats 4000000 in
theorem cex_chunk_29 : check_pow 3712 7 = true := by decide

set_option maxRecDepth 100000 in
set_option maxHeartbeats 4000000 in
theorem cex_chunk_30 : check_pow 3840 7 = true := by decide

set_option maxRecDepth 100000 in
set_option maxHeartbeats 4000000 in
theorem cex_chunk_31 : check_pow 3968 7 = true := by decide

theorem check_pow_all : check_pow 0 12 = true := by
  have h8_0 := check_pow_merge 0 7 cex_chunk_0 cex_chunk_1
  have h8_1 := check_pow_merge 256 7 cex_chunk_2 cex_chunk_3
  have h8_2 := check_pow_merge 512 7 cex_chunk_4 cex_chunk_5
  have h8_3 := check_pow_merge 768 7 cex_chunk_6 cex_chunk_7
  have h8_4 := check_pow_merge 1024 7 cex_chunk_8 cex_chunk_9
  have h8_5 := check_pow_merge 1280 7 cex_chunk_10 cex_chunk_11
  have h8_6 := check_pow_merge 1536 7 cex_chunk_12 cex_chunk_13
  have h8_7 := check_pow_merge 1792 7 cex_chunk_14 cex_chunk_15
  have h8_8 := check_pow_merge 2048 7 cex_chunk_16 cex_chunk_17
  have h8_9 := check_pow_merge 2304 7 cex_chunk_18 cex_chunk_19
  have h8_10 := check_pow_merge 2560 7 cex_chunk_20 cex_chunk_21
  have h8_11 := check_pow_merge 2816 7 cex_chunk_22 cex_chunk_23
  have h8_12 := check_pow_merge 3072 7 cex_chunk_24 cex_chunk_25
  have h8_13 := check_pow_merge 3328 7 cex_chunk_26 cex_chunk_27
  have h8_14 := check_pow_merge 3584 7 cex_chunk_28 cex_chunk_29
  have h8_15 := check_pow_merge 3840 7 cex_chunk_30 cex_chunk_31
  have h9_0 := check_pow_merge 0 8 h8_0 h8_1
  have h9_1 := check_pow_merge 512 8 h8_2 h8_3
  have h9_2 := check_pow_merge 1024 8 h8_4 h8_5
  have h9_3 := check_pow_merge 1536 8 h8_6 h8_7
  have h9_4 := check_pow_merge 2048 8 h8_8 h8_9
  have h9_5 := check_pow_merge 2560 8 h8_10 h8_11
  have h9_6 := check_pow_merge 3072 8 h8_12 h8_13
  have h9_7 := check_pow_merge 3584 8 h8_14 h8_15
  have h10_0 := check_pow_merge 0 9 h9_0 h9_1
  have h10_1 := check_pow_merge 1024 9 h9_2 h9_3
  have h10_2 := check_pow_merge 2048 9 h9_4 h9_5
  have h10_3 := check_pow_merge 3072 9 h9_6 h9_7
  have h11_0 := check_pow_merge 0 10 h10_0 h10_1
  have h11_1 := check_pow_merge 2048 10 h10_2 h10_3
  have h12_0 := check_pow_merge 0 11 h11_0 h11_1
  exact h12_0

/-- Claim C2 counterexample: the 4-byte header `[0, 125, 224, 0]` is
produced by the seed pair `(0, 32000)` — register 2's stream from 32000 is
`[0, 125, 224, 255]`, whose final byte the combiner folds to 0 — yet
`mitm_recover_seeds` returns the not-found outcome `none` instead of a
pair: every register-1 seed's needed sequence violates the register-2
output recurrence, so no table key matches. -/
theorem C2_counterexample :
    CEX_HEADER = [0, 125, 224, 0] ∧
    (0 : Nat) < 2 ^ WIDTH_REG1 ∧ (32000 : Nat) < 2 ^ WIDTH_REG2 ∧
    combined_header 0 32000 CEX_HEADER.length = CEX_HEADER ∧
    generate_full_keystream 0 32000 CEX_HEADER.length = CEX_HEADER ∧
    mitm_recover_seeds CEX_HEADER = none := by
  refine ⟨rfl, by decide, by decide, by decide, by decide, ?_⟩
  rw [mitm_recover_seeds_def, mitm_search_none_iff]
  intro u hu0 hult
  rw [table_find_none_char _ _ _ (full_table_complete _)]
  intro t ht hteq
  rw [Nat.zero_add, shiftLeft_width1] at hult
  have hviol : rec_violated 4 (needed_seq CEX_HEADER u) = true := by
    have hres := check_pow_sound 12 0 check_pow_all u hult
    simpa using hres
  exact rec_violated_sound 4 (needed_seq CEX_HEADER u) hviol t ht hteq
